import Mathlib

/-!
Verification of the photon effects engine (src/crate/src/effects.rs) against
its natural-language specification.

Shallow embedding conventions:
- The image is modelled two ways, matching the two access styles of the
  source.  Effects that go through get_pixel/put_pixel on a DynamicImage
  are modelled on PhotonImage, whose pixel store is a total function from
  coordinates to RGBA values (pixel (x,y) corresponds to bytes
  4*(y*width+x) .. 4*(y*width+x)+3 of the raw buffer, channel order
  R,G,B,A).  Effects that index photon_image.raw_pixels directly
  (inc_brightness, primary) are modelled on RawPixels, a length plus a
  total byte function.
- Machine integers u8/u32/u64 are modelled as Nat; subtractions that the
  source performs on u32 values are Nat truncated subtraction, and every
  theorem keeps to inputs where the source would not underflow.
- f64 arithmetic is modelled exactly over the rationals; the f64 to u8
  cast after a clamp to a nonnegative range is modelled as the integer
  floor.  Every claim settled below only depends on float computations in
  ranges where the f64 computation is exact (windows of size one, exact
  decimal constants, monotone comparisons), so the rational model agrees
  with the source there.
- ImageIterator::new(w, h) is repository code outside src/; per spec
  section 4.2 it enumerates exactly the coordinates of [0,w) x [0,h), and
  all loops of the claims below are order independent (each write is to a
  location no other iteration reads), so loops over it are modelled
  pointwise.
-/

/-- One RGBA pixel; channels are u8 values in the source. -/
structure Pixel where
  r : ℕ
  g : ℕ
  b : ℕ
  a : ℕ
deriving DecidableEq

/-- The Rgb value type of the crate (struct Rgb with fields r, g, b : u8). -/
structure Rgb where
  r : ℕ
  g : ℕ
  b : ℕ
deriving DecidableEq

/-- PhotonImage for effects that use get_pixel/put_pixel: width, height and
the pixel store as a total function on coordinates.  Coordinates outside
[0,width) x [0,height) are never written by any modelled effect; reads
outside that range correspond to accesses on which the image crate panics
(settled by the claim on halftone bounds). -/
structure PhotonImage where
  width : ℕ
  height : ℕ
  pixels : ℕ → ℕ → Pixel

/-- The raw byte buffer view used by effects that index raw_pixels
directly: its length and a total byte function. -/
structure RawPixels where
  len : ℕ
  byte : ℕ → ℕ

/-- Store of one byte in a raw buffer: raw_pixels[i] = v. -/
def setByte (f : ℕ → ℕ) (i v : ℕ) : ℕ → ℕ :=
  fun j => if j = i then v else f j

theorem setByte_same (f : ℕ → ℕ) (i v : ℕ) : setByte f i v i = v := by
  simp [setByte]

theorem setByte_other (f : ℕ → ℕ) (i v j : ℕ) (h : j ≠ i) :
    setByte f i v j = f j := by
  simp [setByte, h]

/-! ## Halftone (effects.rs lines 167-282)

The source loops x in (0..width).step_by(2), y in (0..height).step_by(2),
reads the four pixels (x,y), (x,y+1), (x+1,y), (x+1,y+1), computes their
lumas and the average sat, fills the four local pixel values according to
one of five bands, and commits only put_pixel(x, y, px1): the write of the
other three positions is commented out in the source (line 277). -/

/-- Luma of a pixel: 0.299 r + 0.587 g + 0.114 b, exact over ℚ. -/
def luma (p : Pixel) : ℚ :=
  (p.r : ℚ) * (299 / 1000) + (p.g : ℚ) * (587 / 1000) + (p.b : ℚ) * (114 / 1000)

/-- The value halftone commits at a block anchor (x,y): px1 after the
five-band classification of the averaged luma sat.  Only the RGB of px1 is
assigned by every band; its alpha is the original alpha. -/
def halftone_block_top_left (img : PhotonImage) (x y : ℕ) : Pixel :=
  let px1 := img.pixels x y
  let px2 := img.pixels x (y + 1)
  let px3 := img.pixels (x + 1) y
  let px4 := img.pixels (x + 1) (y + 1)
  let sat := (luma px1 + luma px2 + luma px3 + luma px4) / 4
  if 200 < sat then { r := 255, g := 255, b := 255, a := px1.a }
  else if 159 < sat then { r := 255, g := 255, b := 255, a := px1.a }
  else if 95 < sat then { r := 255, g := 255, b := 255, a := px1.a }
  else if 32 < sat then { r := 0, g := 0, b := 0, a := px1.a }
  else { r := 0, g := 0, b := 0, a := px1.a }

/-- The transformation halftone applies to its local image variable: every
anchor with even x < width and even y < height receives the committed px1;
every other location keeps its previous value (the put_pixel calls for the
other three block positions are absent from the source). -/
def halftone_local (img : PhotonImage) : PhotonImage :=
  { img with
    pixels := fun x y =>
      if x % 2 = 0 ∧ y % 2 = 0 ∧ x < img.width ∧ y < img.height then
        halftone_block_top_left img x y
      else img.pixels x y }

/-- halftone takes its PhotonImage parameter by value (fn halftone(mut
photon_image: PhotonImage), line 168) and returns nothing, so the state the
caller retains is the value it held before the call; the mutation
halftone_local happens on the local copy and is discarded. -/
def halftone_caller_view (img : PhotonImage) : PhotonImage :=
  Function.const PhotonImage img (halftone_local img)

/-- The anchor coordinates halftone visits: (0..width).step_by(2) crossed
with (0..height).step_by(2). -/
def halftone_anchors (width height : ℕ) : List (ℕ × ℕ) :=
  ((List.range ((width + 1) / 2)).map (fun i => 2 * i)).flatMap
    (fun x => ((List.range ((height + 1) / 2)).map (fun j => 2 * j)).map
      (fun y => (x, y)))

/-- The four pixel coordinates halftone reads for the block anchored at p
(lines 174-177 of the source, unguarded). -/
def halftone_block (p : ℕ × ℕ) : List (ℕ × ℕ) :=
  [(p.1, p.2), (p.1, p.2 + 1), (p.1 + 1, p.2), (p.1 + 1, p.2 + 1)]

/-- All pixel coordinates halftone accesses via get_pixel. -/
def halftone_accessed (width height : ℕ) : List (ℕ × ℕ) :=
  (halftone_anchors width height).flatMap halftone_block

/-- Concrete 2-by-2 image of the end-to-end halftone example: top-left and
bottom-right white, the other two black, alpha 255 everywhere. -/
def img2x2 : PhotonImage :=
  { width := 2, height := 2,
    pixels := fun x y =>
      if (x = 0 ∧ y = 0) ∨ (x = 1 ∧ y = 1) then { r := 255, g := 255, b := 255, a := 255 }
      else { r := 0, g := 0, b := 0, a := 255 } }

/-- Concrete 2-by-2 image whose top-left pixel halftone rewrites: white
top-left pixel in an otherwise black image, so sat = 255/4 lands in the
fourth band and the committed px1 is black. -/
def imgTopLeftWhite : PhotonImage :=
  { width := 2, height := 2,
    pixels := fun x y =>
      if x = 0 ∧ y = 0 then { r := 255, g := 255, b := 255, a := 255 }
      else { r := 0, g := 0, b := 0, a := 255 } }

/-! ## Strip overlays (effects.rs lines 636-697) -/

/-- Modelled from the spec: the rectangle-fill primitive
draw_filled_rect_mut is an external collaborator (spec section 6); given an
axis-aligned rectangle and an RGBA color it overwrites every pixel inside
the rectangle, clipped to the image bounds. -/
def draw_filled_rect (img : PhotonImage) (x0 y0 rw rh : ℕ) (c : Pixel) :
    PhotonImage :=
  { img with
    pixels := fun x y =>
      if x < img.width ∧ y < img.height ∧
          x0 ≤ x ∧ x < x0 + rw ∧ y0 ≤ y ∧ y < y0 + rh then c
      else img.pixels x y }

/-- The solid white RGBA value painted by the strip effects (background
color 255,255,255 with alpha 255u8). -/
def whitePixel : Pixel := { r := 255, g := 255, b := 255, a := 255 }

/-- horizontal_strips: total_strips = num_strips * 2 - 1 bands of height
height / total_strips; for i in 1..num_strips paint a white rectangle of
one band height at y_pos + height_strip, then set y_pos = i * (height_strip
* 2).  num_strips is a u8 in the source; the claims stay in its range. -/
def horizontal_strips (img : PhotonImage) (num_strips : ℕ) : PhotonImage :=
  let total_strips := num_strips * 2 - 1
  let height_strip := img.height / total_strips
  ((List.range' 1 (num_strips - 1)).foldl
    (fun acc i =>
      (draw_filled_rect acc.1 0 (acc.2 + height_strip) acc.1.width height_strip
        whitePixel,
       i * (height_strip * 2)))
    (img, 0)).1

/-- vertical_strips: same with the x axis. -/
def vertical_strips (img : PhotonImage) (num_strips : ℕ) : PhotonImage :=
  let total_strips := num_strips * 2 - 1
  let width_strip := img.width / total_strips
  ((List.range' 1 (num_strips - 1)).foldl
    (fun acc i =>
      (draw_filled_rect acc.1 (acc.2 + width_strip) 0 width_strip acc.1.height
        whitePixel,
       i * (width_strip * 2)))
    (img, 0)).1

/-! ## Contrast lookup table (effects.rs lines 553-579) -/

/-- num::clamp as the source calls it: lower bound first, then upper. -/
def clampQ (x lo hi : ℚ) : ℚ :=
  if x < lo then lo else if x > hi then hi else x

/-- One entry of the 256-entry lookup table adjust_contrast builds:
clamp the contrast to [-255, 255], factor = 259(c+255)/(255(259-c)),
offset = -128 factor + 128, entry i = clamp(i factor + offset, 0, 255)
cast to u8 (floor, as the clamped value is nonnegative). -/
def adjust_contrast_lut (contrast : ℚ) (i : ℕ) : ℕ :=
  let clamped_contrast := clampQ contrast (-255) 255
  let factor := (259 * (clamped_contrast + 255)) / (255 * (259 - clamped_contrast))
  let offset := -128 * factor + 128
  let new_val := (i : ℚ) * factor + offset
  (Int.floor (clampQ new_val 0 255)).toNat

/-! ## inc_brightness (effects.rs lines 510-536)

The loop runs i over (0..len-4).step_by(4), i.e. 4k for
k < (len - 4 + 3) / 4, so the final pixel of the buffer is never
processed.  Each iteration reads r, g, b at i, i+1, i+2 and then writes:
r and b saturate at 255 in place; the saturated branch of g writes 255 to
absolute index 1 of the buffer instead of i + 1 (source line 527). -/

/-- One iteration of the inc_brightness loop at byte index i. -/
def incBrightnessStep (brightness : ℕ) (b : ℕ → ℕ) (i : ℕ) : ℕ → ℕ :=
  let r_val := b i
  let g_val := b (i + 1)
  let b_val := b (i + 2)
  let b1 := if r_val ≤ 255 - brightness then setByte b i (r_val + brightness)
    else setByte b i 255
  let b2 := if g_val ≤ 255 - brightness then setByte b1 (i + 1) (g_val + brightness)
    else setByte b1 1 255
  if b_val ≤ 255 - brightness then setByte b2 (i + 2) (b_val + brightness)
  else setByte b2 (i + 2) 255

/-- Number of loop iterations of the raw-buffer effects: the count of
i = 4k with i < len - 4. -/
def rawIterations (len : ℕ) : ℕ := (len - 4 + 3) / 4

/-- inc_brightness on the raw buffer. -/
def inc_brightness (img : RawPixels) (brightness : ℕ) : RawPixels :=
  { img with
    byte := (List.range (rawIterations img.len)).foldl
      (fun b k => incBrightnessStep brightness b (4 * k)) img.byte }

/-- Saturating add at 255, written with the branch condition of the
source (v <= 255 - brightness). -/
def satAdd (brightness v : ℕ) : ℕ :=
  if v ≤ 255 - brightness then v + brightness else 255

/-- The 4-by-4 all-black image of the end-to-end brightness example, as a
raw buffer: 16 pixels (0,0,0,255). -/
def black4x4 : RawPixels :=
  { len := 64, byte := fun i => if i % 4 = 3 then 255 else 0 }

/-! ## primary (effects.rs lines 298-329)

The loop runs i over (0..len-4).step_by(4).  Every iteration reads
raw_pixels[0], raw_pixels[1], raw_pixels[2] (the first pixel, not the
pixel at i), thresholds r and g against 128, and then the third branch
tests b but assigns g_val = 255 in its true arm (source line 320), so the
blue value is only zeroed when b <= 128 and is otherwise written back
unchanged.  The results are stored at i, i+1, i+2. -/

/-- One iteration of the primary loop at byte index i. -/
def primaryStep (b : ℕ → ℕ) (i : ℕ) : ℕ → ℕ :=
  let r_val := b 0
  let g_val := b 1
  let b_val := b 2
  let r1 := if 128 < r_val then 255 else 0
  let g1 := if 128 < g_val then 255 else 0
  let g2 := if 128 < b_val then 255 else g1
  let b2 := if 128 < b_val then b_val else 0
  setByte (setByte (setByte b i r1) (i + 1) g2) (i + 2) b2

/-- primary on the raw buffer. -/
def primary (img : RawPixels) : RawPixels :=
  { img with
    byte := (List.range (rawIterations img.len)).foldl
      (fun b k => primaryStep b (4 * k)) img.byte }

/-- The red value primary writes everywhere, from the first pixel. -/
def primaryR (b : ℕ → ℕ) : ℕ := if 128 < b 0 then 255 else 0

/-- The green value primary writes everywhere: 255 when the first pixel
has green over 128 or blue over 128 (the blue branch re-assigns green). -/
def primaryG (b : ℕ → ℕ) : ℕ := if 128 < b 1 ∨ 128 < b 2 then 255 else 0

/-- The blue value primary writes everywhere: the original first-pixel
blue when it is over 128 (never collapsed to 255), otherwise 0. -/
def primaryB (b : ℕ → ℕ) : ℕ := if 128 < b 2 then b 2 else 0

/-- The byte primary stores at a processed offset m, by channel. -/
def primaryVal (b : ℕ → ℕ) (m : ℕ) : ℕ :=
  if m % 4 = 0 then primaryR b else if m % 4 = 1 then primaryG b else primaryB b

/-- Concrete 2-by-2 buffer whose first pixel is (0, 0, 200, 255): its blue
is above the threshold, exposing the uncollapsed blue write. -/
def bufBlue200 : RawPixels :=
  { len := 16, byte := fun i => if i = 2 then 200 else if i % 4 = 3 then 255 else 0 }

/-! ## Kuwahara filter (effects.rs lines 756-861)

Pass 1 computes, for every anchor (x,y) with x < width - num and
y < height - num, the channel means over the (num+1) x (num+1) window and
the summed per-channel variance, stored in work_pixels.  Pass 2 gathers up
to four candidate window statistics per pixel and writes the RGB of the
min_tuple selection, keeping the alpha byte.

The f64 mean is cast to u8 (floor); floor of sum / k / k over ℚ equals
Nat floor division sum / k / k, which is how calc_avg is written below.
The variance stays a rational; every comparison the claims need is exact
in f64 as well for the instances proved (num = 0 gives variance 0). -/

/-- calc_avg: channel sums over the window anchored at (x,y), divided by
(num + 1) twice as in the source, with the cast to u8. -/
def calc_avg (img : PhotonImage) (num x y : ℕ) : Rgb :=
  let sum_r := ∑ i in Finset.range (num + 1), ∑ j in Finset.range (num + 1),
    (img.pixels (x + i) (y + j)).r
  let sum_g := ∑ i in Finset.range (num + 1), ∑ j in Finset.range (num + 1),
    (img.pixels (x + i) (y + j)).g
  let sum_b := ∑ i in Finset.range (num + 1), ∑ j in Finset.range (num + 1),
    (img.pixels (x + i) (y + j)).b
  { r := sum_r / (num + 1) / (num + 1),
    g := sum_g / (num + 1) / (num + 1),
    b := sum_b / (num + 1) / (num + 1) }

/-- calc_var: sum of squared deviations from the average per channel,
each divided by (num + 1) twice, the three channel variances added. -/
def calc_var (img : PhotonImage) (num x y : ℕ) (avg : Rgb) : ℚ :=
  let sum_r := ∑ i in Finset.range (num + 1), ∑ j in Finset.range (num + 1),
    (((img.pixels (x + i) (y + j)).r : ℚ) - (avg.r : ℚ)) ^ 2
  let sum_g := ∑ i in Finset.range (num + 1), ∑ j in Finset.range (num + 1),
    (((img.pixels (x + i) (y + j)).g : ℚ) - (avg.g : ℚ)) ^ 2
  let sum_b := ∑ i in Finset.range (num + 1), ∑ j in Finset.range (num + 1),
    (((img.pixels (x + i) (y + j)).b : ℚ) - (avg.b : ℚ)) ^ 2
  sum_r / (num + 1) / (num + 1) + sum_g / (num + 1) / (num + 1)
    + sum_b / (num + 1) / (num + 1)

/-- One entry of the pass-1 statistics buffer: (avg.r, avg.g, avg.b, var). -/
structure WorkPixel where
  r : ℕ
  g : ℕ
  b : ℕ
  variance : ℚ
deriving DecidableEq

/-- The statistics entry pass 1 stores for the window anchor (x,y). -/
def work_pixel (img : PhotonImage) (num x y : ℕ) : WorkPixel :=
  let avg := calc_avg img num x y
  { r := avg.r, g := avg.g, b := avg.b, variance := calc_var img num x y avg }

/-- min_tuple of the source: of two optional statistics keep the left one
whenever its variance is at most the variance of the right one. -/
def min_tuple (lhs rhs : Option WorkPixel) : Option WorkPixel :=
  match lhs, rhs with
  | some x, some y => if x.variance ≤ y.variance then some x else some y
  | some x, none => some x
  | none, some y => some y
  | none, none => none

/-- Top-left candidate of pass 2: anchor (x - num, y - num), valid iff
x >= num and y >= num. -/
def cand_top_left (num : ℕ) (work : ℕ → ℕ → WorkPixel) (x y : ℕ) :
    Option WorkPixel :=
  if num ≤ x ∧ num ≤ y then some (work (x - num) (y - num)) else none

/-- Top-right candidate: anchor (x, y - num), valid iff x < width - num
and y >= num. -/
def cand_top_right (width num : ℕ) (work : ℕ → ℕ → WorkPixel) (x y : ℕ) :
    Option WorkPixel :=
  if x < width - num ∧ num ≤ y then some (work x (y - num)) else none

/-- Bottom-left candidate: anchor (x - num, y), valid iff x >= num and
y < height - num. -/
def cand_bottom_left (height num : ℕ) (work : ℕ → ℕ → WorkPixel) (x y : ℕ) :
    Option WorkPixel :=
  if num ≤ x ∧ y < height - num then some (work (x - num) y) else none

/-- Bottom-right candidate: anchor (x, y), valid iff x < width - num and
y < height - num. -/
def cand_bottom_right (width height num : ℕ) (work : ℕ → ℕ → WorkPixel)
    (x y : ℕ) : Option WorkPixel :=
  if x < width - num ∧ y < height - num then some (work x y) else none

/-- The candidate selection of pass 2: combine top-left with top-right,
bottom-left with bottom-right, then the two results. -/
def kuwahara_select (width height num : ℕ) (work : ℕ → ℕ → WorkPixel)
    (x y : ℕ) : Option WorkPixel :=
  min_tuple
    (min_tuple (cand_top_left num work x y) (cand_top_right width num work x y))
    (min_tuple (cand_bottom_left height num work x y)
      (cand_bottom_right width height num work x y))

/-- The list of valid candidate statistics for a pixel, in the order
top-left, top-right, bottom-left, bottom-right. -/
def kuwahara_cands (width height num : ℕ) (work : ℕ → ℕ → WorkPixel)
    (x y : ℕ) : List WorkPixel :=
  (cand_top_left num work x y).toList ++ (cand_top_right width num work x y).toList
    ++ (cand_bottom_left height num work x y).toList
    ++ (cand_bottom_right width height num work x y).toList

/-- The whole kuwahara effect.  Every in-range pixel receives the RGB of
the selected candidate and keeps its alpha.  The none branch is the
.expect failure of the source (a panic); it is modelled as leaving the
pixel unchanged, and the claim theorems on candidate validity characterize
exactly when it is reached. -/
def kuwahara (img : PhotonImage) (num : ℕ) : PhotonImage :=
  { img with
    pixels := fun x y =>
      if x < img.width ∧ y < img.height then
        match kuwahara_select img.width img.height num (work_pixel img num) x y with
        | some s => { r := s.r, g := s.g, b := s.b, a := (img.pixels x y).a }
        | none => img.pixels x y
      else img.pixels x y }

/-- Concrete 1-by-1 image used to instantiate the kuwahara theorems. -/
def imgK : PhotonImage :=
  { width := 1, height := 1, pixels := fun _ _ => { r := 10, g := 20, b := 30, a := 40 } }

/-! ## Theorems -/

/-- C7: for every 2-by-2 block halftone processes, only the top-left pixel
of the block is written back; the other three positions (odd x or odd y)
retain their original values after the call. -/
theorem halftone_non_top_left_unchanged (img : PhotonImage) (x y : ℕ)
    (h : x % 2 = 1 ∨ y % 2 = 1) :
    (halftone_local img).pixels x y = img.pixels x y := by
  simp only [halftone_local]
  rw [if_neg]
  rintro ⟨hx, hy, -, -⟩
  omega

/-- Witness for C7: in the 2-by-2 end-to-end example image the position
(1,0) is not a block anchor and keeps its original value. -/
theorem halftone_non_top_left_unchanged_witness :
    (1 % 2 = 1 ∨ 0 % 2 = 1) ∧
      (halftone_local img2x2).pixels 1 0 = img2x2.pixels 1 0 :=
  ⟨Or.inl rfl, halftone_non_top_left_unchanged img2x2 1 0 (Or.inl rfl)⟩

/-- C8: horizontal_strips and vertical_strips with num_strips = 1 leave
the image unmodified, because the loop range 1..1 is empty. -/
theorem strips_one_strip_identity (img : PhotonImage) :
    horizontal_strips img 1 = img ∧ vertical_strips img 1 = img :=
  ⟨rfl, rfl⟩

/-- On the concrete image with a white top-left pixel over black, the
local halftone computation rewrites the top-left pixel to black: the
averaged luma is 255/4, which falls in the fourth band. -/
theorem halftone_local_imgTopLeftWhite_val :
    (halftone_local imgTopLeftWhite).pixels 0 0 = { r := 0, g := 0, b := 0, a := 255 } := by
  simp only [halftone_local, imgTopLeftWhite, halftone_block_top_left, luma]
  norm_num

/-- C10: halftone takes its image by value and returns nothing, so the
caller-visible image is unchanged by a call, even though the computation
on the local copy does rewrite pixels for some inputs. -/
theorem halftone_caller_view_unchanged :
    (∀ img : PhotonImage, halftone_caller_view img = img) ∧
      (∃ img : PhotonImage, halftone_local img ≠ img) :=
  ⟨fun _ => rfl,
   ⟨imgTopLeftWhite, fun h => by
     have h0 := congrArg (fun im => im.pixels 0 0) h
     simp only [] at h0
     rw [halftone_local_imgTopLeftWhite_val] at h0
     simp [imgTopLeftWhite] at h0⟩⟩

/-- Counterexample for C6: on a 1-by-1 image halftone accesses the pixel
coordinate (1,1), which is outside the buffer bounds, so the claim that no
access is out of bounds for images with odd dimensions is false. -/
theorem halftone_oob_access_1x1 :
    (1, 1) ∈ halftone_accessed 1 1 ∧ ¬((1 : ℕ) < 1 ∧ (1 : ℕ) < 1) := by
  exact ⟨by decide, by decide⟩

/-- C6 amended: for images with even width and even height, halftone
visits only non-overlapping 2-by-2 blocks whose four pixels all lie inside
the image, so no access is out of bounds; a trailing odd row or column is
instead visited and read out of bounds, as the counterexample shows. -/
theorem halftone_even_dims_in_bounds (width height : ℕ)
    (hw : width % 2 = 0) (hh : height % 2 = 0) :
    (∀ p ∈ halftone_accessed width height, p.1 < width ∧ p.2 < height) ∧
      (∀ a ∈ halftone_anchors width height, ∀ b ∈ halftone_anchors width height,
        a ≠ b → ∀ p ∈ halftone_block a, p ∉ halftone_block b) := by
  constructor
  · intro p hp
    simp only [halftone_accessed, List.mem_flatMap] at hp
    obtain ⟨a, ha, hpa⟩ := hp
    simp only [halftone_anchors, List.mem_flatMap, List.mem_map,
      List.mem_range] at ha
    obtain ⟨x, ⟨i, hi, rfl⟩, y, ⟨j, hj, rfl⟩, rfl⟩ := ha
    simp only [halftone_block, List.mem_cons, List.not_mem_nil, or_false] at hpa
    rcases hpa with rfl | rfl | rfl | rfl <;> exact ⟨by omega, by omega⟩
  · intro a ha b hb hab p hpa hpb
    simp only [halftone_anchors, List.mem_flatMap, List.mem_map,
      List.mem_range] at ha hb
    obtain ⟨x, ⟨i, hi, rfl⟩, y, ⟨j, hj, rfl⟩, rfl⟩ := ha
    obtain ⟨x, ⟨i2, hi2, rfl⟩, y, ⟨j2, hj2, rfl⟩, rfl⟩ := hb
    simp only [halftone_block, List.mem_cons, List.not_mem_nil, or_false] at hpa hpb
    apply hab
    rcases hpa with rfl | rfl | rfl | rfl <;>
      simp only [Prod.mk.injEq] at hpb ⊢ <;>
      rcases hpb with ⟨e1, e2⟩ | ⟨e1, e2⟩ | ⟨e1, e2⟩ | ⟨e1, e2⟩ <;> omega

/-- Witness for the amended C6 at the even dimensions 2 by 2. -/
theorem halftone_even_dims_in_bounds_witness :
    2 % 2 = 0 ∧
      ((∀ p ∈ halftone_accessed 2 2, p.1 < 2 ∧ p.2 < 2) ∧
        (∀ a ∈ halftone_anchors 2 2, ∀ b ∈ halftone_anchors 2 2,
          a ≠ b → ∀ p ∈ halftone_block a, p ∉ halftone_block b)) :=
  ⟨rfl, halftone_even_dims_in_bounds 2 2 rfl rfl⟩

/-- clampQ is monotone in its argument when the bounds are ordered. -/
theorem clampQ_mono {lo hi x y : ℚ} (hlohi : lo ≤ hi) (h : x ≤ y) :
    clampQ x lo hi ≤ clampQ y lo hi := by
  unfold clampQ
  split_ifs <;> linarith

/-- C9: for every contrast value in [0, 255] the 256-entry lookup table of
adjust_contrast is monotonically non-decreasing. -/
theorem adjust_contrast_lut_monotone (contrast : ℚ) (h0 : 0 ≤ contrast)
    (h255 : contrast ≤ 255) (i : ℕ) (hi : i < 255) :
    adjust_contrast_lut contrast i ≤ adjust_contrast_lut contrast (i + 1) := by
  simp only [adjust_contrast_lut]
  have hc : clampQ contrast (-255) 255 = contrast := by
    unfold clampQ
    rw [if_neg (by linarith), if_neg (by simp only [gt_iff_lt, not_lt]; linarith)]
  rw [hc]
  have hf : (0 : ℚ) ≤ 259 * (contrast + 255) / (255 * (259 - contrast)) := by
    apply div_nonneg
    · linarith
    · nlinarith
  apply Int.toNat_le_toNat
  apply Int.floor_le_floor
  apply clampQ_mono (by norm_num)
  have : (i : ℚ) * (259 * (contrast + 255) / (255 * (259 - contrast)))
      ≤ ((i : ℚ) + 1) * (259 * (contrast + 255) / (255 * (259 - contrast))) := by
    apply mul_le_mul_of_nonneg_right _ hf
    linarith
  push_cast
  linarith

/-- Witness for C9 at contrast 0 and entry 3. -/
theorem adjust_contrast_lut_monotone_witness :
    (0 : ℚ) ≤ 0 ∧ (0 : ℚ) ≤ 255 ∧ 3 < 255 ∧
      adjust_contrast_lut 0 3 ≤ adjust_contrast_lut 0 4 :=
  ⟨le_refl 0, by norm_num, by norm_num,
    adjust_contrast_lut_monotone 0 (le_refl 0) (by norm_num) 3 (by norm_num)⟩

/-- Unfolding one iteration of a foldl over List.range. -/
theorem foldl_range_succ {α : Type} (f : α → ℕ → α) (n : ℕ) (init : α) :
    (List.range (n + 1)).foldl f init = f ((List.range n).foldl f init) n := by
  rw [List.range_succ, List.foldl_append, List.foldl_cons, List.foldl_nil]

/-- Pointwise value of one inc_brightness iteration when the green read
does not overflow (so the stray write to byte 1 does not happen); the
three read values are passed as equations so the lemma can be applied to a
buffer given by a conditional expression. -/
theorem incBrightnessStep_apply (brightness : ℕ) (G : ℕ → ℕ) (i m v0 v1 v2 : ℕ)
    (h0 : G i = v0) (h1 : G (i + 1) = v1) (h2 : G (i + 2) = v2)
    (hgcond : v1 ≤ 255 - brightness) :
    incBrightnessStep brightness G i m =
      if m = i then satAdd brightness v0
      else if m = i + 1 then satAdd brightness v1
      else if m = i + 2 then satAdd brightness v2
      else G m := by
  subst h0 h1 h2
  simp only [incBrightnessStep, ite_apply, setByte, satAdd]
  split_ifs <;> omega

/-- Characterization of the inc_brightness loop after j iterations, under
the proviso that no processed green byte overflows (otherwise the source
writes byte 1 of the buffer instead of the green byte). -/
theorem inc_brightness_loop (brightness : ℕ) (b : ℕ → ℕ) :
    ∀ j, (∀ k, k < j → b (4 * k + 1) ≤ 255 - brightness) → ∀ m,
      (List.range j).foldl (fun acc k => incBrightnessStep brightness acc (4 * k)) b m
        = if m < 4 * j ∧ m % 4 ≠ 3 then satAdd brightness (b m) else b m := by
  intro j
  induction j with
  | zero => intro hg m; simp
  | succ n ih =>
    intro hg m
    have hgn := hg n (by omega)
    have ihf : (List.range n).foldl (fun acc k => incBrightnessStep brightness acc (4 * k)) b
        = fun m => if m < 4 * n ∧ m % 4 ≠ 3 then satAdd brightness (b m) else b m :=
      funext (ih (fun k hk => hg k (by omega)))
    rw [foldl_range_succ, ihf]
    have e0 : (fun m => if m < 4 * n ∧ m % 4 ≠ 3 then satAdd brightness (b m) else b m) (4 * n)
        = b (4 * n) := if_neg (by omega)
    have e1 : (fun m => if m < 4 * n ∧ m % 4 ≠ 3 then satAdd brightness (b m) else b m) (4 * n + 1)
        = b (4 * n + 1) := if_neg (by omega)
    have e2 : (fun m => if m < 4 * n ∧ m % 4 ≠ 3 then satAdd brightness (b m) else b m) (4 * n + 2)
        = b (4 * n + 2) := if_neg (by omega)
    rw [incBrightnessStep_apply brightness _ (4 * n) m (b (4 * n)) (b (4 * n + 1))
      (b (4 * n + 2)) e0 e1 e2 hgn]
    by_cases h0 : m = 4 * n
    · subst h0
      rw [if_pos rfl, if_pos (by omega)]
    · rw [if_neg h0]
      by_cases h1 : m = 4 * n + 1
      · subst h1
        rw [if_pos rfl, if_pos (by omega)]
      · rw [if_neg h1]
        by_cases h2 : m = 4 * n + 2
        · subst h2
          rw [if_pos rfl, if_pos (by omega)]
        · rw [if_neg h2]
          show (if m < 4 * n ∧ m % 4 ≠ 3 then satAdd brightness (b m) else b m) = _
          by_cases h3 : m < 4 * n ∧ m % 4 ≠ 3
          · rw [if_pos h3, if_pos (by omega)]
          · rw [if_neg h3, if_neg (by omega)]

set_option maxRecDepth 4000 in
/-- Counterexample for C4: on the 4-by-4 all-black image the loop bound
(0..len-4).step_by(4) stops before the final pixel, so after
inc_brightness with brightness 100 the red byte of pixel 15 (offset 60) is
still 0, not the 100 the claim requires for every pixel. -/
theorem inc_brightness_skips_last_pixel :
    (inc_brightness black4x4 100).byte 60 = 0 ∧
      (inc_brightness black4x4 100).byte 60 ≠ 100 := by
  have h := inc_brightness_loop 100 black4x4.byte (rawIterations black4x4.len)
    (by decide) 60
  rw [if_neg (by decide)] at h
  have hb : black4x4.byte 60 = 0 := rfl
  have heq : (inc_brightness black4x4 100).byte 60 = 0 := h.trans hb
  exact ⟨heq, by rw [heq]; omega⟩

/-- C4 amended: for every buffer of at least one pixel and brightness in
[0, 255] such that no processed green byte needs saturation,
inc_brightness adds the brightness with per-channel saturation at 255 to
the R, G, B bytes of every pixel except the last, and leaves every alpha
byte and the whole final pixel unchanged.  (When a green byte does need
saturation the source instead writes 255 to byte 1 of the buffer, and when
the buffer is shorter than 4 bytes the source underflows; both are outside
this statement.) -/
theorem inc_brightness_amended (img : RawPixels) (brightness : ℕ)
    (hbr : brightness ≤ 255) (hlen : 4 ≤ img.len)
    (hg : ∀ k, k < rawIterations img.len → img.byte (4 * k + 1) ≤ 255 - brightness) :
    (inc_brightness img brightness).len = img.len ∧
      ∀ m, (inc_brightness img brightness).byte m =
        if m < 4 * rawIterations img.len ∧ m % 4 ≠ 3
        then satAdd brightness (img.byte m) else img.byte m :=
  ⟨rfl, fun m => inc_brightness_loop brightness img.byte (rawIterations img.len) hg m⟩

/-- Witness for the amended C4 at the 4-by-4 all-black image with
brightness 100. -/
theorem inc_brightness_amended_witness :
    100 ≤ 255 ∧ 4 ≤ black4x4.len ∧
      (∀ k, k < rawIterations black4x4.len → black4x4.byte (4 * k + 1) ≤ 255 - 100) ∧
      ((inc_brightness black4x4 100).len = black4x4.len ∧
        ∀ m, (inc_brightness black4x4 100).byte m =
          if m < 4 * rawIterations black4x4.len ∧ m % 4 ≠ 3
          then satAdd 100 (black4x4.byte m) else black4x4.byte m) :=
  ⟨by norm_num, by decide, by decide,
    inc_brightness_amended black4x4 100 (by norm_num) (by decide) (by decide)⟩

/-- Pointwise value of one primary iteration; the three reads of the
first pixel are passed as equations. -/
theorem primaryStep_apply (G : ℕ → ℕ) (i m r0 g0 b0 : ℕ)
    (h0 : G 0 = r0) (h1 : G 1 = g0) (h2 : G 2 = b0) :
    primaryStep G i m =
      if m = i then (if 128 < r0 then 255 else 0)
      else if m = i + 1 then (if 128 < b0 then 255 else if 128 < g0 then 255 else 0)
      else if m = i + 2 then (if 128 < b0 then b0 else 0)
      else G m := by
  subst h0 h1 h2
  simp only [primaryStep, ite_apply, setByte]
  split_ifs <;> omega

/-- Characterization of the primary loop after j iterations: every
processed byte holds the value determined by the first pixel of the
original buffer, every other byte is unchanged.  The loop rereads bytes
0, 1, 2 after having overwritten them at its first iteration, but the
rewritten values are fixed points of the computation, so the result is
the same as reading the original first pixel. -/
theorem primary_loop (b : ℕ → ℕ) :
    ∀ j m, (List.range j).foldl (fun acc k => primaryStep acc (4 * k)) b m
      = if m < 4 * j ∧ m % 4 ≠ 3 then primaryVal b m else b m := by
  intro j
  induction j with
  | zero => intro m; simp
  | succ n ih =>
    intro m
    have ihf : (List.range n).foldl (fun acc k => primaryStep acc (4 * k)) b
        = fun m => if m < 4 * n ∧ m % 4 ≠ 3 then primaryVal b m else b m := funext ih
    rw [foldl_range_succ, ihf]
    rcases Nat.eq_zero_or_pos n with hn | hn
    · subst hn
      rw [primaryStep_apply
        (fun m => if m < 4 * 0 ∧ m % 4 ≠ 3 then primaryVal b m else b m)
        (4 * 0) m (b 0) (b 1) (b 2) rfl rfl rfl]
      by_cases h0 : m = 4 * 0
      · subst h0
        rw [if_pos rfl,
          if_pos (show 4 * 0 < 4 * (0 + 1) ∧ (4 * 0) % 4 ≠ 3 from by omega)]
        simp only [primaryVal, primaryR, primaryG, primaryB]
        split_ifs <;> first | omega | exact False.elim (by assumption)
      · rw [if_neg h0]
        by_cases h1 : m = 4 * 0 + 1
        · subst h1
          rw [if_pos rfl,
            if_pos (show 4 * 0 + 1 < 4 * (0 + 1) ∧ (4 * 0 + 1) % 4 ≠ 3 from by omega)]
          simp only [primaryVal, primaryR, primaryG, primaryB]
          split_ifs <;> first | omega | exact False.elim (by assumption)
        · rw [if_neg h1]
          by_cases h2 : m = 4 * 0 + 2
          · subst h2
            rw [if_pos rfl,
              if_pos (show 4 * 0 + 2 < 4 * (0 + 1) ∧ (4 * 0 + 2) % 4 ≠ 3 from by omega)]
            simp only [primaryVal, primaryR, primaryG, primaryB]
            split_ifs <;> first | omega | exact False.elim (by assumption)
          · rw [if_neg h2]
            show (if m < 4 * 0 ∧ m % 4 ≠ 3 then primaryVal b m else b m) = _
            rw [if_neg (show ¬(m < 4 * 0 ∧ m % 4 ≠ 3) from by omega),
              if_neg (show ¬(m < 4 * (0 + 1) ∧ m % 4 ≠ 3) from by omega)]
    · have e0 : (fun m => if m < 4 * n ∧ m % 4 ≠ 3 then primaryVal b m else b m) 0
          = primaryR b := by
        show (if (0:ℕ) < 4 * n ∧ (0:ℕ) % 4 ≠ 3 then primaryVal b 0 else b 0) = primaryR b
        rw [if_pos (by omega)]
        simp [primaryVal]
      have e1 : (fun m => if m < 4 * n ∧ m % 4 ≠ 3 then primaryVal b m else b m) 1
          = primaryG b := by
        show (if (1:ℕ) < 4 * n ∧ (1:ℕ) % 4 ≠ 3 then primaryVal b 1 else b 1) = primaryG b
        rw [if_pos (by omega)]
        simp [primaryVal]
      have e2 : (fun m => if m < 4 * n ∧ m % 4 ≠ 3 then primaryVal b m else b m) 2
          = primaryB b := by
        show (if (2:ℕ) < 4 * n ∧ (2:ℕ) % 4 ≠ 3 then primaryVal b 2 else b 2) = primaryB b
        rw [if_pos (by omega)]
        simp [primaryVal]
      rw [primaryStep_apply _ (4 * n) m (primaryR b) (primaryG b) (primaryB b) e0 e1 e2]
      by_cases h0 : m = 4 * n
      · subst h0
        rw [if_pos rfl,
          if_pos (show 4 * n < 4 * (n + 1) ∧ (4 * n) % 4 ≠ 3 from by omega)]
        simp only [primaryVal, primaryR, primaryG, primaryB]
        split_ifs <;> first | omega | exact False.elim (by assumption)
      · rw [if_neg h0]
        by_cases h1 : m = 4 * n + 1
        · subst h1
          rw [if_pos rfl,
            if_pos (show 4 * n + 1 < 4 * (n + 1) ∧ (4 * n + 1) % 4 ≠ 3 from by omega)]
          simp only [primaryVal, primaryR, primaryG, primaryB]
          split_ifs <;> first | omega | exact False.elim (by assumption)
        · rw [if_neg h1]
          by_cases h2 : m = 4 * n + 2
          · subst h2
            rw [if_pos rfl,
              if_pos (show 4 * n + 2 < 4 * (n + 1) ∧ (4 * n + 2) % 4 ≠ 3 from by omega)]
            simp only [primaryVal, primaryR, primaryG, primaryB]
            split_ifs <;> first | omega | exact False.elim (by assumption)
          · rw [if_neg h2]
            show (if m < 4 * n ∧ m % 4 ≠ 3 then primaryVal b m else b m) = _
            by_cases h3 : m < 4 * n ∧ m % 4 ≠ 3
            · rw [if_pos h3,
                if_pos (show m < 4 * (n + 1) ∧ m % 4 ≠ 3 from by omega)]
            · rw [if_neg h3,
                if_neg (show ¬(m < 4 * (n + 1) ∧ m % 4 ≠ 3) from by omega)]

/-- Counterexample for C5: on a 2-by-2 buffer whose first pixel is
(0, 0, 200, 255), primary writes 200 — the uncollapsed first-pixel blue —
to every processed blue byte, a value that is neither 0 nor 255. -/
theorem primary_blue_not_collapsed :
    (primary bufBlue200).byte 2 = 200 ∧ (200 : ℕ) ≠ 0 ∧ (200 : ℕ) ≠ 255 := by
  have h := primary_loop bufBlue200.byte (rawIterations bufBlue200.len) 2
  rw [if_pos (by decide)] at h
  have hv : primaryVal bufBlue200.byte 2 = 200 := by decide
  exact ⟨h.trans hv, by omega, by omega⟩

/-- C5 amended: primary writes, to every byte it processes (all pixels
except the last, since the loop runs over (0..len-4).step_by(4)), values
determined by the first pixel of the buffer: red is 255 or 0 by the test
128 < r, green is 255 when 128 < g or 128 < b and otherwise 0, and blue is
left at the first-pixel blue value when 128 < b (not collapsed to 255) and
otherwise set to 0; alpha bytes and all unprocessed bytes are unchanged. -/
theorem primary_first_pixel_values (img : RawPixels) (hlen : 4 ≤ img.len) :
    (primary img).len = img.len ∧
      ∀ m, (primary img).byte m =
        if m < 4 * rawIterations img.len ∧ m % 4 ≠ 3
        then primaryVal img.byte m else img.byte m :=
  ⟨rfl, fun m => primary_loop img.byte (rawIterations img.len) m⟩

/-- Witness for the amended C5 at the concrete 2-by-2 buffer. -/
theorem primary_first_pixel_values_witness :
    4 ≤ bufBlue200.len ∧
      ((primary bufBlue200).len = bufBlue200.len ∧
        ∀ m, (primary bufBlue200).byte m =
          if m < 4 * rawIterations bufBlue200.len ∧ m % 4 ≠ 3
          then primaryVal bufBlue200.byte m else bufBlue200.byte m) :=
  ⟨by decide, primary_first_pixel_values bufBlue200 (by decide)⟩

/-- min_tuple returns some value whenever one of its arguments is some. -/
theorem min_tuple_isSome {a b : Option WorkPixel} (h : a.isSome ∨ b.isSome) :
    (min_tuple a b).isSome := by
  cases a <;> cases b <;> simp_all [min_tuple] <;> split_ifs <;> simp

/-- The value min_tuple returns is one of its arguments. -/
theorem min_tuple_eq_some {a b : Option WorkPixel} {s : WorkPixel}
    (h : min_tuple a b = some s) : a = some s ∨ b = some s := by
  cases a with
  | none =>
    cases b with
    | none => exact absurd h (by simp [min_tuple])
    | some y => exact Or.inr h
  | some x =>
    cases b with
    | none => exact Or.inl h
    | some y =>
      simp only [min_tuple] at h
      split_ifs at h with hv
      · exact Or.inl h
      · exact Or.inr h

/-- The value min_tuple returns has variance at most the variance of any
argument that is some. -/
theorem min_tuple_variance_le {a b : Option WorkPixel} {s t : WorkPixel}
    (h : min_tuple a b = some s) (ht : a = some t ∨ b = some t) :
    s.variance ≤ t.variance := by
  rcases ht with ha | hb
  · subst ha
    cases b with
    | none =>
      simp only [min_tuple, Option.some.injEq] at h
      subst h
      exact le_refl _
    | some y =>
      simp only [min_tuple] at h
      split_ifs at h with hv <;> simp only [Option.some.injEq] at h <;> subst h
      · exact le_refl _
      · exact le_of_lt (lt_of_not_le hv)
  · subst hb
    cases a with
    | none =>
      simp only [min_tuple, Option.some.injEq] at h
      subst h
      exact le_refl _
    | some x =>
      simp only [min_tuple] at h
      split_ifs at h with hv <;> simp only [Option.some.injEq] at h <;> subst h
      · exact hv
      · exact le_refl _

/-- The two-level min_tuple combination of pass 2 selects, whenever at
least one candidate is valid, a valid candidate of minimum variance. -/
theorem min_tuple_select_spec (tl tr bl br : Option WorkPixel)
    (h : tl.isSome ∨ tr.isSome ∨ bl.isSome ∨ br.isSome) :
    ∃ s, min_tuple (min_tuple tl tr) (min_tuple bl br) = some s ∧
      (tl = some s ∨ tr = some s ∨ bl = some s ∨ br = some s) ∧
      ∀ t, (tl = some t ∨ tr = some t ∨ bl = some t ∨ br = some t) →
        s.variance ≤ t.variance := by
  have hsome : (min_tuple (min_tuple tl tr) (min_tuple bl br)).isSome := by
    rcases h with h | h | h | h
    · exact min_tuple_isSome (Or.inl (min_tuple_isSome (Or.inl h)))
    · exact min_tuple_isSome (Or.inl (min_tuple_isSome (Or.inr h)))
    · exact min_tuple_isSome (Or.inr (min_tuple_isSome (Or.inl h)))
    · exact min_tuple_isSome (Or.inr (min_tuple_isSome (Or.inr h)))
  obtain ⟨s, hs⟩ := Option.isSome_iff_exists.mp hsome
  refine ⟨s, hs, ?_, ?_⟩
  · rcases min_tuple_eq_some hs with hL | hR
    · rcases min_tuple_eq_some hL with h1 | h1
      · exact Or.inl h1
      · exact Or.inr (Or.inl h1)
    · rcases min_tuple_eq_some hR with h1 | h1
      · exact Or.inr (Or.inr (Or.inl h1))
      · exact Or.inr (Or.inr (Or.inr h1))
  · intro t ht
    rcases ht with h1 | h1 | h1 | h1
    · have hLsome : (min_tuple tl tr).isSome :=
        min_tuple_isSome (Or.inl (by simp [h1]))
      obtain ⟨sL, hsL⟩ := Option.isSome_iff_exists.mp hLsome
      exact le_trans (min_tuple_variance_le hs (Or.inl hsL))
        (min_tuple_variance_le hsL (Or.inl h1))
    · have hLsome : (min_tuple tl tr).isSome :=
        min_tuple_isSome (Or.inr (by simp [h1]))
      obtain ⟨sL, hsL⟩ := Option.isSome_iff_exists.mp hLsome
      exact le_trans (min_tuple_variance_le hs (Or.inl hsL))
        (min_tuple_variance_le hsL (Or.inr h1))
    · have hRsome : (min_tuple bl br).isSome :=
        min_tuple_isSome (Or.inl (by simp [h1]))
      obtain ⟨sR, hsR⟩ := Option.isSome_iff_exists.mp hRsome
      exact le_trans (min_tuple_variance_le hs (Or.inr hsR))
        (min_tuple_variance_le hsR (Or.inl h1))
    · have hRsome : (min_tuple bl br).isSome :=
        min_tuple_isSome (Or.inr (by simp [h1]))
      obtain ⟨sR, hsR⟩ := Option.isSome_iff_exists.mp hRsome
      exact le_trans (min_tuple_variance_le hs (Or.inr hsR))
        (min_tuple_variance_le hsR (Or.inr h1))

/-- Counterexample for C1: on a 3-by-3 image with num = 2 — dimensions
that do exceed num on both axes — the pixel (1,1) has no valid candidate
window (1 < 2 rules out the left candidates and 1 >= 3 - 2 rules out the
right candidates), so pass 2 reaches the no-candidate failure branch. -/
theorem kuwahara_no_valid_candidate_3x3 :
    2 < 3 ∧ (1 : ℕ) < 3 ∧
      kuwahara_select 3 3 2 (fun _ _ => { r := 0, g := 0, b := 0, variance := 0 }) 1 1
        = none :=
  ⟨by norm_num, by norm_num, rfl⟩

/-- C1 amended: for every image whose width and height are both at least
2 * num, every pixel (x,y) inside the image has at least one valid
candidate window in pass 2 of kuwahara, so the candidate selection never
reaches the no-candidate failure branch.  (For num < width < 2 * num the
counterexample shows a pixel with no valid candidate.) -/
theorem kuwahara_candidates_always_valid (width height num x y : ℕ)
    (work : ℕ → ℕ → WorkPixel)
    (hw : 2 * num ≤ width) (hh : 2 * num ≤ height)
    (hx : x < width) (hy : y < height) :
    (kuwahara_select width height num work x y).isSome := by
  unfold kuwahara_select
  rcases le_or_lt num x with hxn | hxn
  · rcases le_or_lt num y with hyn | hyn
    · apply min_tuple_isSome
      left
      apply min_tuple_isSome
      left
      simp [cand_top_left, hxn, hyn]
    · apply min_tuple_isSome
      right
      apply min_tuple_isSome
      left
      simp only [cand_bottom_left]
      rw [if_pos ⟨hxn, by omega⟩]
      simp
  · rcases le_or_lt num y with hyn | hyn
    · apply min_tuple_isSome
      left
      apply min_tuple_isSome
      right
      simp only [cand_top_right]
      rw [if_pos ⟨by omega, hyn⟩]
      simp
    · apply min_tuple_isSome
      right
      apply min_tuple_isSome
      right
      simp only [cand_bottom_right]
      rw [if_pos ⟨by omega, by omega⟩]
      simp

/-- Witness for the amended C1: a 2-by-2 image with num = 1 at the pixel
(0, 1). -/
theorem kuwahara_candidates_always_valid_witness :
    2 * 1 ≤ 2 ∧ 2 * 1 ≤ 2 ∧ 0 < 2 ∧ 1 < 2 ∧
      (kuwahara_select 2 2 1 (fun _ _ => { r := 0, g := 0, b := 0, variance := 0 })
        0 1).isSome :=
  ⟨by norm_num, by norm_num, by norm_num, by norm_num,
    kuwahara_candidates_always_valid 2 2 1 0 1
      (fun _ _ => { r := 0, g := 0, b := 0, variance := 0 })
      (by norm_num) (by norm_num) (by norm_num) (by norm_num)⟩

/-- C2: for every pixel of the image with at least one valid candidate,
pass 2 of kuwahara writes the averaged RGB of a valid candidate window of
minimum variance (ties resolved by the pairwise min_tuple combination of
the selection itself, which keeps the left operand on a tie), and the
alpha byte of the pixel is unchanged. -/
theorem kuwahara_pass2_min_variance (img : PhotonImage) (num x y : ℕ)
    (hx : x < img.width) (hy : y < img.height)
    (hvalid : kuwahara_cands img.width img.height num (work_pixel img num) x y ≠ []) :
    ∃ s, kuwahara_select img.width img.height num (work_pixel img num) x y = some s ∧
      s ∈ kuwahara_cands img.width img.height num (work_pixel img num) x y ∧
      (∀ c ∈ kuwahara_cands img.width img.height num (work_pixel img num) x y,
        s.variance ≤ c.variance) ∧
      (kuwahara img num).pixels x y
        = { r := s.r, g := s.g, b := s.b, a := (img.pixels x y).a } := by
  have hor : (cand_top_left num (work_pixel img num) x y).isSome ∨
      (cand_top_right img.width num (work_pixel img num) x y).isSome ∨
      (cand_bottom_left img.height num (work_pixel img num) x y).isSome ∨
      (cand_bottom_right img.width img.height num (work_pixel img num) x y).isSome := by
    by_contra hcon
    push_neg at hcon
    obtain ⟨h1, h2, h3, h4⟩ := hcon
    apply hvalid
    simp [kuwahara_cands, Option.not_isSome_iff_eq_none.mp h1,
      Option.not_isSome_iff_eq_none.mp h2, Option.not_isSome_iff_eq_none.mp h3,
      Option.not_isSome_iff_eq_none.mp h4]
  obtain ⟨s, hs, hmem, hmin⟩ := min_tuple_select_spec _ _ _ _ hor
  have hsel : kuwahara_select img.width img.height num (work_pixel img num) x y
      = some s := hs
  refine ⟨s, hsel, ?_, ?_, ?_⟩
  · simp only [kuwahara_cands, List.mem_append, Option.mem_toList, Option.mem_def]
    tauto
  · intro c hc
    apply hmin
    simp only [kuwahara_cands, List.mem_append, Option.mem_toList,
      Option.mem_def] at hc
    tauto
  · simp only [kuwahara]
    rw [if_pos ⟨hx, hy⟩, hsel]

/-- Witness for C2: the 1-by-1 image imgK with num = 0 at pixel (0,0). -/
theorem kuwahara_pass2_min_variance_witness :
    0 < imgK.width ∧ 0 < imgK.height ∧
      kuwahara_cands imgK.width imgK.height 0 (work_pixel imgK 0) 0 0 ≠ [] ∧
      (∃ s, kuwahara_select imgK.width imgK.height 0 (work_pixel imgK 0) 0 0 = some s ∧
        s ∈ kuwahara_cands imgK.width imgK.height 0 (work_pixel imgK 0) 0 0 ∧
        (∀ c ∈ kuwahara_cands imgK.width imgK.height 0 (work_pixel imgK 0) 0 0,
          s.variance ≤ c.variance) ∧
        (kuwahara imgK 0).pixels 0 0
          = { r := s.r, g := s.g, b := s.b, a := (imgK.pixels 0 0).a }) :=
  ⟨by decide, by decide, by simp [kuwahara_cands, cand_top_left],
    kuwahara_pass2_min_variance imgK 0 0 0 (by decide) (by decide)
      (by simp [kuwahara_cands, cand_top_left])⟩

/-- Pass 1 with num = 0 stores each pixel itself with variance 0: the
1-by-1 window average of a channel is the channel value, and the squared
deviation from it is 0. -/
theorem work_pixel_num0 (img : PhotonImage) (x y : ℕ) :
    work_pixel img 0 x y =
      { r := (img.pixels x y).r, g := (img.pixels x y).g,
        b := (img.pixels x y).b, variance := 0 } := by
  simp [work_pixel, calc_avg, calc_var, Finset.sum_range_one]

/-- With num = 0 all four candidates of any in-range pixel coincide with
the statistics entry of the pixel itself, and the selection returns it. -/
theorem kuwahara_select_num0 (w h : ℕ) (work : ℕ → ℕ → WorkPixel) (x y : ℕ)
    (hx : x < w) (hy : y < h) :
    kuwahara_select w h 0 work x y = some (work x y) := by
  simp [kuwahara_select, cand_top_left, cand_top_right, cand_bottom_left,
    cand_bottom_right, min_tuple, hx, hy]

/-- C3: kuwahara with num = 0 leaves every image of positive dimensions
pixel-identical to the input. -/
theorem kuwahara_num0_identity (img : PhotonImage) (hw : 1 ≤ img.width)
    (hh : 1 ≤ img.height) : kuwahara img 0 = img := by
  obtain ⟨w, h, px⟩ := img
  simp only [kuwahara]
  rw [PhotonImage.mk.injEq]
  refine ⟨rfl, rfl, ?_⟩
  funext x y
  by_cases hxy : x < w ∧ y < h
  · rw [if_pos hxy]
    have hsel := kuwahara_select_num0 w h (work_pixel ⟨w, h, px⟩ 0) x y hxy.1 hxy.2
    rw [hsel, work_pixel_num0]
  · rw [if_neg hxy]

/-- Witness for C3 at the concrete 1-by-1 image imgK. -/
theorem kuwahara_num0_identity_witness :
    1 ≤ imgK.width ∧ 1 ≤ imgK.height ∧ kuwahara imgK 0 = imgK :=
  ⟨by decide, by decide, kuwahara_num0_identity imgK (by decide) (by decide)⟩
